import Mathlib

/-!
Verification of `src/youtube_title_renamer.py` (tubearchivist-renamer).

The script's pure string manipulation (sanitizing, trimming, pattern
formatting, decimal counters) is embedded directly; file contents are
`List Char`; the HTTP layer (`requests.get` + BeautifulSoup parsing) is
abstracted as per-attempt / per-identifier oracles; the per-directory
pipeline `process_directory` is a fold that threads the ledger-file
content and the set of file names in the directory, emitting a trace of
the side effects the Python code performs.
-/

set_option maxRecDepth 10000

/-- The characters of a string literal, used to write `List Char` values. -/
def chars (s : String) : List Char := s.data

/-- Whether `p` is an initial segment of `l`: `isPrefixList p l` is true iff `p` is an initial segment of `l`. -/
def isPrefixList : List Char → List Char → Bool
  | [], _ => true
  | _ :: _, [] => false
  | a :: as, b :: bs => a == b && isPrefixList as bs

/-- Python's substring test `needle in hay`. -/
def containsSub (needle : List Char) : List Char → Bool
  | [] => isPrefixList needle []
  | c :: rest => isPrefixList needle (c :: rest) || containsSub needle rest

/-- Python's `name.endswith(suffixStr)`. -/
def endsWithList (sfx s : List Char) : Bool := isPrefixList sfx.reverse s.reverse

/-- Python's `Path(name).stem` for a name ending in `.mp4`: the name without that
final 4-character suffix (the only case `process_directory` uses). -/
def pyStem (name : List Char) : List Char := name.take (name.length - 4)

/-- One step of reading a text file line by line (Python file iteration /
`readlines`): `acc` holds the reversed characters of the current line.
Lines keep their trailing newline; a last line without a newline is kept. -/
def readlinesAux : List Char → List Char → List (List Char)
  | acc, [] => if acc = [] then [] else [acc.reverse]
  | acc, c :: cs =>
      if c = '\n' then (acc.reverse ++ ['\n']) :: readlinesAux [] cs
      else readlinesAux (c :: acc) cs

/-- Python `f.readlines()` on file content `s`, keeping line endings. -/
def readlines (s : List Char) : List (List Char) := readlinesAux [] s

-- Python: sanitized = re.sub(r'[<>:"/\\|?*]', '_', filename)
/-- The fixed forbidden-character class of `sanitize_filename`. -/
def forbiddenChar (c : Char) : Bool :=
  c == '<' || c == '>' || c == ':' || c == '"' || c == '/' ||
  c == '\\' || c == '|' || c == '?' || c == '*'

/-- Python whitespace characters stripped by `str.strip()`. -/
def pySpace (c : Char) : Bool :=
  c == ' ' || c == '\t' || c == '\n' || c == '\r' ||
  c == Char.ofNat 11 || c == Char.ofNat 12

/-- Model of `sanitize_filename`: replace forbidden characters by `_`; if the result
is empty or whitespace-only (`not sanitized.strip()`), return the fallback. -/
def sanitize_filename (filename : List Char) : List Char :=
  let sanitized := filename.map (fun c => if forbiddenChar c then '_' else c)
  if sanitized.all pySpace then chars "unnamed_file" else sanitized

/-- Drop characters of a list up to and including the first space; `none`
when no space occurs. Applied to a reversed string this locates the last
space, as Python's `rsplit(' ', 1)` does. -/
def dropToFirstSpace : List Char → Option (List Char)
  | [] => none
  | c :: cs => if c = ' ' then some cs else dropToFirstSpace cs

/-- Python `s.rsplit(' ', 1)[0]`: everything before the last space, or the
whole string when it contains no space. -/
def rsplitLastSpace (s : List Char) : List Char :=
  match dropToFirstSpace s.reverse with
  | none => s
  | some r => r.reverse

/-- Model of `trim_title`: return the title unchanged when within the limit,
otherwise `title[:limit].rsplit(' ', 1)[0]`. -/
def trim_title (limit : Nat) (title : List Char) : List Char :=
  if title.length ≤ limit then title
  else rsplitLastSpace (title.take limit)

/-- Read a `str.format` replacement field: the characters up to the closing
`}` and the remainder after it; `none` when the brace is unmatched or a
nested `{` occurs (Python raises `ValueError` there). -/
def takeField : List Char → Option (List Char × List Char)
  | [] => none
  | c :: cs =>
      if c = '}' then some ([], cs)
      else if c = '{' then none
      else (fun p => (c :: p.1, p.2)) <$> takeField cs

/-- The keyword arguments `apply_filename_pattern` passes to `str.format`:
`title`, `video_id` and `date`. Any other field name raises `KeyError`,
modelled as `none`. -/
def lookupField (name title vid dateStr : List Char) : Option (List Char) :=
  if name = chars "title" then some title
  else if name = chars "video_id" then some vid
  else if name = chars "date" then some dateStr
  else none

/-- Python `pattern.format(title=..., video_id=..., date=...)`, with `\x7b\x7b`
and `\x7d\x7d` escapes; `none` models the exceptions `str.format` raises.
`fuel` only drives the recursion; `pattern.length + 1` always suffices. -/
def formatGo (title vid dateStr : List Char) : Nat → List Char → Option (List Char)
  | 0, _ => none
  | _ + 1, [] => some []
  | fuel + 1, c :: rest =>
      if c = '{' then
        match rest with
        | '{' :: rest2 => (fun t => '{' :: t) <$> formatGo title vid dateStr fuel rest2
        | _ =>
            match takeField rest with
            | none => none
            | some (f, r) =>
                match lookupField f title vid dateStr with
                | none => none
                | some v => (fun t => v ++ t) <$> formatGo title vid dateStr fuel r
      else if c = '}' then
        match rest with
        | '}' :: rest2 => (fun t => '}' :: t) <$> formatGo title vid dateStr fuel rest2
        | _ => none
      else (fun t => c :: t) <$> formatGo title vid dateStr fuel rest

/-- Python's `pattern.format(title=sanitizedTitle, video_id=vid, date=dateStr)`. -/
def pyFormat (pattern title vid dateStr : List Char) : Option (List Char) :=
  formatGo title vid dateStr (pattern.length + 1) pattern

/-- Model of `apply_filename_pattern(pattern, title, video_id)`; the call to
`datetime.now().strftime` is passed in as `dateStr`. -/
def apply_filename_pattern (dateStr pattern title vid : List Char) : Option (List Char) :=
  pyFormat pattern (sanitize_filename title) vid dateStr

/-- Python's slice `l[-n:]`: the last `n` elements — except that `l[-0:]`
is `l[0:]`, the whole list. -/
def sliceLastN (l : List (List Char)) (n : Nat) : List (List Char) :=
  if n = 0 then l else l.drop (l.length - n)

/-- Model of `rotate_log_file`, acting on the content of the file at
`log_file_path`: read all lines; when there are more than `maxEntries`,
seek to the start, write back `lines[-maxEntries:]` and truncate, so the
file becomes exactly the concatenation of the kept lines; otherwise the
file is left as it was. -/
def rotate_log_file (content : List Char) (maxEntries : Nat) : List Char :=
  let lines := readlines content
  if maxEntries < lines.length then (sliceLastN lines maxEntries).flatten else content

/-- Model of `is_already_renamed(video_id)` reading the metadata-log content:
`any(video_id in line for line in f)`; a missing file (`False`) and an
empty file behave alike, so absence is modelled as empty content. -/
def is_already_renamed (ledger vid : List Char) : Bool :=
  (readlines ledger).any (fun line => containsSub vid line)

/-- Model of `log_renamed_file(video_id, new_name)`: append
`f"{video_id},{new_name}\n"` to the metadata-log content. -/
def log_renamed_file (ledger vid newName : List Char) : List Char :=
  ledger ++ vid ++ (',' :: (newName ++ ['\n']))

/-- Decimal digits of `n`, fuel-driven; any `fuel > n` suffices because
`n / 10 < n` for `n ≥ 10`. -/
def natToDecGo : Nat → Nat → List Char
  | 0, _ => []
  | fuel + 1, n =>
      if n < 10 then [Char.ofNat (48 + n)]
      else natToDecGo fuel (n / 10) ++ [Char.ofNat (48 + n % 10)]

/-- Decimal digits of `n`, as Python's `str(counter)` renders it. -/
def natToDec (n : Nat) : List Char := natToDecGo (n + 1) n

/-- Value of a decimal digit string, a left inverse used to show that
`natToDec` is injective. -/
def decVal (s : List Char) : Nat :=
  s.foldl (fun a c => a * 10 + (c.toNat - 48)) 0

/-- The successive destination names `rename_file` probes: the rendered
name itself, then `f"{new_name}_{counter}.mp4"` for `counter = 1, 2, ...`. -/
def candidateName (newName : List Char) : Nat → List Char
  | 0 => newName
  | k + 1 => newName ++ '_' :: (natToDec (k + 1) ++ chars ".mp4")

/-- The `while new_file_path.exists()` loop of `rename_file`, unrolled with
fuel; `existing.length + 2` probes always reach a free name (proved below),
so the fuel never runs out and the fallback clause is unreachable. -/
def findDest (existing : List (List Char)) (newName : List Char) : Nat → Nat → List Char
  | k, 0 => candidateName newName k
  | k, fuel + 1 =>
      if candidateName newName k ∈ existing then findDest existing newName (k + 1) fuel
      else candidateName newName k

/-- The destination path `rename_file` finally passes to `os.rename`,
given the names existing in the directory. -/
def rename_dest (existing : List (List Char)) (newName : List Char) : List Char :=
  findDest existing newName 0 (existing.length + 2)

/-- Events of one `fetch_youtube_title` call: an HTTP GET attempt, a
`time.sleep(retry_delay)`, and the `logging.warning` after exhaustion. -/
inductive FEvent where
  | httpAttempt (i : Nat)
  | slept (d : Nat)
  | warned
  deriving DecidableEq, Repr

/-- The retry loop of `fetch_youtube_title`. Each iteration issues
`requests.get`; the response-status check, HTML parse and title extraction
are abstracted as `oracle i` — `some t` when attempt `i` yields a title,
`none` on a non-200 status or a missing title tag, in which case the code
sleeps `delay` and continues. -/
def fetchGo (oracle : Nat → Option (List Char)) (delay : Nat) :
    Nat → Nat → Option (List Char) × List FEvent
  | _, 0 => (none, [FEvent.warned])
  | i, rem + 1 =>
      match oracle i with
      | some t => (some t, [FEvent.httpAttempt i])
      | none =>
          let p := fetchGo oracle delay (i + 1) rem
          (p.1, FEvent.httpAttempt i :: FEvent.slept delay :: p.2)

/-- Model of `fetch_youtube_title(video_id, max_retries, retry_delay)`: the returned
title (`none` for Python's `None`) and the trace of attempts and sleeps. -/
def fetch_youtube_title (oracle : Nat → Option (List Char))
    (maxRetries delay : Nat) : Option (List Char) × List FEvent :=
  fetchGo oracle delay 0 maxRetries

/-- Number of HTTP attempts in a fetch trace. -/
def countAttempts (es : List FEvent) : Nat :=
  (es.filter fun e => match e with | FEvent.httpAttempt _ => true | _ => false).length

/-- Number of sleeps in a fetch trace. -/
def countSleeps (es : List FEvent) : Nat :=
  (es.filter fun e => match e with | FEvent.slept _ => true | _ => false).length

/-- The configuration values `process_directory` and its callees read
(`config.get(...)`), plus the command-line `dry_run` / `interactive_mode`
flags. `ledgerIsLogFile` records whether the configured `metadata_log` and
`log_file_path` name the same file (they do in the default config), so that
`rotate_log_file` acts on the ledger content exactly when they coincide. -/
structure RenConfig where
  dryRun : Bool
  interactive : Bool
  titleLengthLimit : Nat
  filenamePattern : List Char
  waitTimer : Nat
  maxLogEntries : Nat
  plexToken : List Char
  librarySectionId : List Char
  ledgerIsLogFile : Bool
  deriving DecidableEq, Repr

/-- Side effects `process_directory` performs, in program order.
`fetchTitle` stands for one `fetch_youtube_title` call (one or more HTTP
GETs to the watch URL); `plexScan` is the HTTP GET of `trigger_plex_scan`. -/
inductive REffect where
  | fetchTitle (vid : List Char)
  | renamed (src dst : List Char)
  | ledgerAppend (vid newName : List Char)
  | logRotate
  | slept (secs : Nat)
  | plexScan
  deriving DecidableEq, Repr

/-- A network call is a title fetch or the Plex rescan trigger. -/
def isNetworkEffect : REffect → Bool
  | REffect.fetchTitle _ => true
  | REffect.plexScan => true
  | _ => false

/-- Count of effects that issue at least one HTTP request. -/
def countNetwork (es : List REffect) : Nat := (es.filter isNetworkEffect).length

/-- Recognizes an `os.rename` effect in a trace. -/
def isRenameEffect : REffect → Bool
  | REffect.renamed _ _ => true
  | _ => false

/-- The state a run threads: the content of the metadata-log (ledger) file
and the file names currently existing in the directory being processed. -/
structure PState where
  ledger : List Char
  existing : List (List Char)
  deriving DecidableEq, Repr

/-- The per-file body of `process_directory`'s loop. `fetchO` gives the
result of `fetch_youtube_title` for an identifier, `confirm file newName`
the interactive prompt's answer, `dateStr` today's date string. `none`
models an uncaught exception (`str.format` raising on a bad pattern), which
aborts the whole run. Console prints are not modelled. -/
def processFile (cfg : RenConfig) (fetchO : List Char → Option (List Char))
    (confirm : List Char → List Char → Bool) (dateStr : List Char)
    (st : PState) (file : List Char) : Option (PState × List REffect) :=
  if ¬ endsWithList (chars ".mp4") file then some (st, [])
  else
    let vid := pyStem file
    if is_already_renamed st.ledger vid then some (st, [])
    else
      match fetchO vid with
      | none => some (st, [REffect.fetchTitle vid])
      | some title =>
          -- Python's `if title:` is false for the empty string as well
          if title = [] then some (st, [REffect.fetchTitle vid])
          else
            let trimmed := trim_title cfg.titleLengthLimit title
            match apply_filename_pattern dateStr cfg.filenamePattern trimmed vid with
            | none => none
            | some newName =>
                if cfg.interactive && ¬ confirm file newName then
                  some (st, [REffect.fetchTitle vid])
                else if cfg.dryRun then
                  -- rename_file returns before renaming, but the caller still
                  -- records the ledger line, rotates the log and sleeps
                  let ledger2 := log_renamed_file st.ledger vid newName
                  let ledger3 := if cfg.ledgerIsLogFile then
                      rotate_log_file ledger2 cfg.maxLogEntries else ledger2
                  some ({ st with ledger := ledger3 },
                    [REffect.fetchTitle vid, REffect.ledgerAppend vid newName,
                     REffect.logRotate, REffect.slept cfg.waitTimer])
                else
                  let dst := rename_dest st.existing newName
                  let ledger2 := log_renamed_file st.ledger vid newName
                  let ledger3 := if cfg.ledgerIsLogFile then
                      rotate_log_file ledger2 cfg.maxLogEntries else ledger2
                  some ({ ledger := ledger3, existing := dst :: st.existing.erase file },
                    [REffect.fetchTitle vid, REffect.renamed file dst,
                     REffect.ledgerAppend vid newName,
                     REffect.logRotate, REffect.slept cfg.waitTimer])

/-- The loop of `process_directory` over the matched files. -/
def processFiles (cfg : RenConfig) (fetchO : List Char → Option (List Char))
    (confirm : List Char → List Char → Bool) (dateStr : List Char) :
    PState → List (List Char) → Option (PState × List REffect)
  | st, [] => some (st, [])
  | st, f :: fs =>
      match processFile cfg fetchO confirm dateStr st f with
      | none => none
      | some (st2, es) =>
          match processFiles cfg fetchO confirm dateStr st2 fs with
          | none => none
          | some (st3, es2) => some (st3, es ++ es2)

/-- Model of `trigger_plex_scan`: when the token or the section id is missing the
function only prints and returns; otherwise it issues one HTTP GET
(whatever the response status, exactly one call is made). -/
def trigger_plex_scan (cfg : RenConfig) : List REffect :=
  if cfg.plexToken = [] || cfg.librarySectionId = [] then [] else [REffect.plexScan]

/-- Model of `process_directory(path)`: process every file of the directory, then
unconditionally call `trigger_plex_scan`. -/
def process_directory (cfg : RenConfig) (fetchO : List Char → Option (List Char))
    (confirm : List Char → List Char → Bool) (dateStr : List Char)
    (st : PState) (files : List (List Char)) : Option (PState × List REffect) :=
  match processFiles cfg fetchO confirm dateStr st files with
  | none => none
  | some (st2, es) => some (st2, es ++ trigger_plex_scan cfg)

/-- A flat filesystem: content of the file at each path. Used to state
which paths `rotate_log_file` and `log_renamed_file` touch. -/
def rotateFileAt (fs : List Char → List Char) (logPath : List Char)
    (maxEntries : Nat) : List Char → List Char :=
  fun p => if p = logPath then rotate_log_file (fs logPath) maxEntries else fs p

/-- The function `log_renamed_file` opens the file at the configured `metadata_log` path
in append mode. -/
def recordFileAt (fs : List Char → List Char) (metaPath vid newName : List Char) :
    List Char → List Char :=
  fun p => if p = metaPath then log_renamed_file (fs metaPath) vid newName else fs p

/-- One processed item's ledger traffic in `process_directory`:
`log_renamed_file` (at `metadata_log`) then `rotate_log_file` (at
`log_file_path`). -/
def recordThenRotate (logPath metaPath : List Char) (maxEntries : Nat)
    (vid newName : List Char) (fs : List Char → List Char) : List Char → List Char :=
  rotateFileAt (recordFileAt fs metaPath vid newName) logPath maxEntries

/-- Predicate: `trimmed` ends at a space boundary of `title`: `trimmed` followed by a
space is an initial segment of `title`. This is the "never splits a word"
reading of the spec for a truncated title. -/
def endsAtSpaceB (title trimmed : List Char) : Bool :=
  isPrefixList (trimmed ++ [' ']) title

/-- A full text line: some newline-free body followed by `'\n'`. -/
def fullLine (l : List Char) : Prop :=
  ∃ m, (∀ c ∈ m, c ≠ '\n') ∧ l = m ++ ['\n']

/-- A line as produced by `readlines`: a full line, or a nonempty
newline-free final fragment. -/
def goodLine (l : List Char) : Prop :=
  fullLine l ∨ (l ≠ [] ∧ ∀ c ∈ l, c ≠ '\n')

/-- The shape of any `readlines` output: every line is good and only the
last may lack the trailing newline. -/
def LinesShape : List (List Char) → Prop
  | [] => True
  | [l] => goodLine l
  | l :: ls => fullLine l ∧ LinesShape ls

/-! ### Basic lemmas about `isPrefixList` and `containsSub` -/

theorem isPrefixList_self_append (p q : List Char) : isPrefixList p (p ++ q) = true := by
  induction p with
  | nil => rfl
  | cons a as ih => simp [isPrefixList, ih]

theorem containsSub_of_isPrefixList (v l : List Char) (h : isPrefixList v l = true) :
    containsSub v l = true := by
  cases l with
  | nil => simpa [containsSub] using h
  | cons c cs => simp [containsSub, h]

theorem containsSub_of_decomp (v p q l : List Char) (h : l = p ++ (v ++ q)) :
    containsSub v l = true := by
  subst h
  induction p with
  | nil => exact containsSub_of_isPrefixList v (v ++ q) (isPrefixList_self_append v q)
  | cons a p' ih => simp [containsSub, ih]

theorem isPrefixList_trans_append (p l t : List Char) (h : isPrefixList p l = true) :
    isPrefixList p (l ++ t) = true := by
  induction p generalizing l with
  | nil => rfl
  | cons a as ih =>
      cases l with
      | nil => simp [isPrefixList] at h
      | cons b bs =>
          simp [isPrefixList] at h
          simp [isPrefixList, h.1, ih bs h.2]

/-! ### Lemmas about `dropToFirstSpace` and `rsplitLastSpace` -/

theorem dropToFirstSpace_some (l r : List Char) (h : dropToFirstSpace l = some r) :
    ∃ a, l = a ++ ' ' :: r ∧ ∀ c ∈ a, c ≠ ' ' := by
  induction l with
  | nil => simp [dropToFirstSpace] at h
  | cons c cs ih =>
      by_cases hc : c = ' '
      · simp [dropToFirstSpace, hc] at h
        exact ⟨[], by simp [hc, h], by simp⟩
      · simp [dropToFirstSpace, hc] at h
        obtain ⟨a, ha, hna⟩ := ih h
        exact ⟨c :: a, by simp [ha], by
          intro x hx
          rcases List.mem_cons.mp hx with rfl | hx'
          · exact hc
          · exact hna x hx'⟩

theorem dropToFirstSpace_none (l : List Char) (h : ' ' ∉ l) : dropToFirstSpace l = none := by
  induction l with
  | nil => rfl
  | cons c cs ih =>
      have hc : c ≠ ' ' := by rintro rfl; exact h (List.mem_cons_self _ _)
      have hcs : ' ' ∉ cs := fun hm => h (List.mem_cons_of_mem _ hm)
      simp [dropToFirstSpace, Ne.symm hc, hc, ih hcs]

theorem length_rsplitLastSpace (s : List Char) :
    (rsplitLastSpace s).length ≤ s.length := by
  unfold rsplitLastSpace
  cases h : dropToFirstSpace s.reverse with
  | none => exact le_refl _
  | some r =>
      obtain ⟨a, ha, _⟩ := dropToFirstSpace_some _ _ h
      have : s.reverse.length = a.length + (1 + r.length) := by
        simp [ha]; omega
      simp only [List.length_reverse] at this ⊢
      omega

/-! ### The shape of `readlines` output and the write-back round trip -/

theorem readlinesAux_newline (m : List Char) :
    ∀ (acc t : List Char), (∀ c ∈ m, c ≠ '\n') →
    readlinesAux acc (m ++ '\n' :: t) = (acc.reverse ++ (m ++ ['\n'])) :: readlinesAux [] t := by
  induction m with
  | nil => intro acc t _; simp [readlinesAux]
  | cons c m' ih =>
      intro acc t hm
      have hc : c ≠ '\n' := hm c (List.mem_cons_self _ _)
      have hm' : ∀ x ∈ m', x ≠ '\n' := fun x hx => hm x (List.mem_cons_of_mem _ hx)
      simp only [List.cons_append, readlinesAux, if_neg hc, List.append_eq]
      rw [ih (c :: acc) t hm']
      simp

theorem readlinesAux_no_newline (m : List Char) :
    ∀ acc : List Char, (∀ c ∈ m, c ≠ '\n') →
    readlinesAux acc m =
      if acc.reverse ++ m = [] then [] else [acc.reverse ++ m] := by
  induction m with
  | nil =>
      intro acc _
      simp only [readlinesAux, List.append_nil]
      by_cases h : acc = []
      · simp [h]
      · simp [h, List.reverse_eq_nil_iff, h]
  | cons c m' ih =>
      intro acc hm
      have hc : c ≠ '\n' := hm c (List.mem_cons_self _ _)
      have hm' : ∀ x ∈ m', x ≠ '\n' := fun x hx => hm x (List.mem_cons_of_mem _ hx)
      simp only [readlinesAux, if_neg hc]
      rw [ih (c :: acc) hm']
      simp

theorem LinesShape_cons (l : List Char) (ls : List (List Char))
    (hl : fullLine l) (hls : LinesShape ls) : LinesShape (l :: ls) := by
  cases ls with
  | nil => exact Or.inl hl
  | cons l' ls' => exact ⟨hl, hls⟩

theorem LinesShape_of_readlinesAux (s : List Char) :
    ∀ acc : List Char, (∀ c ∈ acc, c ≠ '\n') → LinesShape (readlinesAux acc s) := by
  induction s with
  | nil =>
      intro acc hacc
      by_cases h : acc = []
      · simp [readlinesAux, h, LinesShape]
      · simp only [readlinesAux, if_neg h]
        exact Or.inr ⟨by simpa [List.reverse_eq_nil_iff] using h,
          by intro c hc; exact hacc c (List.mem_reverse.mp hc)⟩
  | cons c cs ih =>
      intro acc hacc
      by_cases hc : c = '\n'
      · subst hc
        simp only [readlinesAux, if_pos rfl]
        refine LinesShape_cons _ _ ⟨acc.reverse, ?_, rfl⟩ (ih [] (by simp))
        intro x hx; exact hacc x (List.mem_reverse.mp hx)
      · simp only [readlinesAux, if_neg hc]
        refine ih (c :: acc) ?_
        intro x hx
        rcases List.mem_cons.mp hx with rfl | hx'
        · exact hc
        · exact hacc x hx'

theorem LinesShape_tail (l : List Char) (ls : List (List Char))
    (h : LinesShape (l :: ls)) : LinesShape ls := by
  cases ls with
  | nil => trivial
  | cons l' ls' => exact h.2

theorem LinesShape_drop (k : Nat) :
    ∀ ls : List (List Char), LinesShape ls → LinesShape (ls.drop k) := by
  induction k with
  | zero => intro ls h; simpa using h
  | succ k' ih =>
      intro ls h
      cases ls with
      | nil => trivial
      | cons l ls' => exact ih ls' (LinesShape_tail l ls' h)

theorem readlines_flatten (ls : List (List Char)) (h : LinesShape ls) :
    readlines ls.flatten = ls := by
  induction ls with
  | nil => rfl
  | cons l ls' ih =>
      cases ls' with
      | nil =>
          have hl : goodLine l := h
          rcases hl with ⟨m, hm, rfl⟩ | ⟨hne, hnl⟩
          · show readlinesAux [] ((m ++ ['\n']) ++ [].flatten) = [m ++ ['\n']]
            rw [List.flatten_nil, List.append_nil, List.append_cons, List.append_nil]
            rw [readlinesAux_newline m [] [] hm]
            simp [readlinesAux]
          · show readlinesAux [] (l ++ [].flatten) = [l]
            rw [List.flatten_nil, List.append_nil]
            rw [readlinesAux_no_newline l [] hnl]
            simp [hne]
      | cons l2 ls2 =>
          obtain ⟨⟨m, hm, rfl⟩, hshape⟩ := h
          show readlinesAux [] ((m ++ ['\n']) ++ (l2 :: ls2).flatten) = _
          rw [List.append_assoc,
            show ['\n'] ++ (l2 :: ls2).flatten = '\n' :: (l2 :: ls2).flatten from rfl,
            readlinesAux_newline m [] _ hm,
            show readlinesAux [] (l2 :: ls2).flatten = readlines (l2 :: ls2).flatten from rfl,
            ih hshape]
          simp

/-! ### A newline-free segment of the content lands inside one line -/

theorem readlinesAux_head_piece (y : List Char) :
    ∀ acc : List Char, acc ≠ [] ∨ y ≠ [] →
    ∃ l ls, readlinesAux acc y = l :: ls ∧ ∃ t, l = acc.reverse ++ t := by
  induction y with
  | nil =>
      intro acc h
      have hacc : acc ≠ [] := h.resolve_right (fun hy => hy rfl)
      refine ⟨acc.reverse, [], ?_, [], by simp⟩
      simp [readlinesAux, hacc]
  | cons c cs ih =>
      intro acc _
      by_cases hc : c = '\n'
      · subst hc
        exact ⟨acc.reverse ++ ['\n'], readlinesAux [] cs, by simp [readlinesAux], ['\n'], rfl⟩
      · obtain ⟨l, ls, heq, t, hl⟩ := ih (c :: acc) (Or.inl (by simp))
        refine ⟨l, ls, ?_, c :: t, ?_⟩
        · simp only [readlinesAux, if_neg hc]; exact heq
        · simp [hl]

theorem readlinesAux_head_seg (v : List Char) :
    ∀ (acc y : List Char), (∀ c ∈ v, c ≠ '\n') → y ≠ [] →
    ∃ l ls, readlinesAux acc (v ++ y) = l :: ls ∧ ∃ t, l = acc.reverse ++ (v ++ t) := by
  induction v with
  | nil =>
      intro acc y _ hy
      obtain ⟨l, ls, heq, t, hl⟩ := readlinesAux_head_piece y acc (Or.inr hy)
      exact ⟨l, ls, by simpa using heq, t, by simpa using hl⟩
  | cons c v' ih =>
      intro acc y hv hy
      have hc : c ≠ '\n' := hv c (List.mem_cons_self _ _)
      have hv' : ∀ x ∈ v', x ≠ '\n' := fun x hx => hv x (List.mem_cons_of_mem _ hx)
      obtain ⟨l, ls, heq, t, hl⟩ := ih (c :: acc) y hv' hy
      refine ⟨l, ls, ?_, t, ?_⟩
      · simp only [List.cons_append, readlinesAux, if_neg hc]; exact heq
      · simp [hl]

theorem exists_line_with_seg (x : List Char) :
    ∀ (acc v y : List Char), (∀ c ∈ v, c ≠ '\n') → y ≠ [] →
    ∃ l ∈ readlinesAux acc (x ++ v ++ y), ∃ p t, l = p ++ (v ++ t) := by
  induction x with
  | nil =>
      intro acc v y hv hy
      obtain ⟨l, ls, heq, t, hl⟩ := readlinesAux_head_seg v acc y hv hy
      refine ⟨l, ?_, acc.reverse, t, hl⟩
      rw [List.nil_append, heq]
      exact List.mem_cons_self _ _
  | cons c x' ih =>
      intro acc v y hv hy
      by_cases hc : c = '\n'
      · subst hc
        obtain ⟨l, hmem, hdec⟩ := ih [] v y hv hy
        refine ⟨l, ?_, hdec⟩
        simp only [List.cons_append, List.append_assoc] at *
        simp only [readlinesAux, if_pos rfl]
        exact List.mem_cons_of_mem _ (by simpa [List.append_assoc] using hmem)
      · obtain ⟨l, hmem, hdec⟩ := ih (c :: acc) v y hv hy
        refine ⟨l, ?_, hdec⟩
        simp only [List.cons_append, readlinesAux, if_neg hc]
        exact hmem

theorem dropToFirstSpace_mem (l : List Char) (h : ' ' ∈ l) :
    ∃ r, dropToFirstSpace l = some r := by
  induction l with
  | nil => simp at h
  | cons c cs ih =>
      by_cases hc : c = ' '
      · exact ⟨cs, by simp [dropToFirstSpace, hc]⟩
      · have : ' ' ∈ cs := by
          rcases List.mem_cons.mp h with h' | h'
          · exact absurd h'.symm hc
          · exact h'
        obtain ⟨r, hr⟩ := ih this
        exact ⟨r, by simp [dropToFirstSpace, hc, hr]⟩

/-- C3 counterexample: with title `"abcdef"` and limit 3 the title is
truncated to `"abc"`, which does not end at a whitespace boundary of the
original — the word is split, so the universally quantified claim fails. -/
theorem c3_counterexample :
    ¬ (3 < (chars "abcdef").length →
        endsAtSpaceB (chars "abcdef") (trim_title 3 (chars "abcdef")) = true) := by
  decide

/-- C3 (amended): `trim_title` always returns at most `L` characters; when
the title is truncated and the `L`-character prefix contains a space, the
result ends at a space boundary of the original title; when that prefix
contains no space, the result is the raw `L`-character prefix, which may
split a word. -/
theorem c3_trim_title_spec (title : List Char) (L : Nat) :
    (trim_title L title).length ≤ L ∧
    (L < title.length → ' ' ∈ title.take L →
      endsAtSpaceB title (trim_title L title) = true) ∧
    (L < title.length → ' ' ∉ title.take L →
      trim_title L title = title.take L) := by
  refine ⟨?_, ?_, ?_⟩
  · by_cases h : title.length ≤ L
    · simp [trim_title, h]
    · simp only [trim_title, if_neg h]
      refine le_trans (length_rsplitLastSpace _) ?_
      simp [List.length_take]
  · intro hL hsp
    have hnot : ¬ title.length ≤ L := by omega
    simp only [trim_title, if_neg hnot]
    have hsp' : ' ' ∈ (title.take L).reverse := List.mem_reverse.mpr hsp
    obtain ⟨r, hr⟩ := dropToFirstSpace_mem _ hsp'
    obtain ⟨a, ha, _⟩ := dropToFirstSpace_some _ _ hr
    unfold rsplitLastSpace
    rw [hr]
    have hs : title.take L = (r.reverse ++ [' ']) ++ a.reverse := by
      have := congrArg List.reverse ha
      simpa [List.reverse_append] using this
    unfold endsAtSpaceB
    have htitle : title = (r.reverse ++ [' ']) ++ (a.reverse ++ title.drop L) := by
      conv_lhs => rw [← List.take_append_drop L title]
      rw [hs, List.append_assoc]
    rw [htitle]
    exact isPrefixList_self_append _ _
  · intro hL hns
    have hnot : ¬ title.length ≤ L := by omega
    simp only [trim_title, if_neg hnot]
    have : ' ' ∉ (title.take L).reverse := fun hm => hns (List.mem_reverse.mp hm)
    unfold rsplitLastSpace
    rw [dropToFirstSpace_none _ this]

/-- C3 witness: title `"foo barbaz"` with limit 7 is trimmed to at most 7
characters and ends at a space boundary of the original. -/
theorem c3_witness :
    (trim_title 7 (chars "foo barbaz")).length ≤ 7 ∧
    endsAtSpaceB (chars "foo barbaz") (trim_title 7 (chars "foo barbaz")) = true := by
  have h := c3_trim_title_spec (chars "foo barbaz") 7
  exact ⟨h.1, h.2.1 (by decide) (by decide)⟩

/-- C6 counterexample: for an identifier containing a newline the appended
ledger entry spans two lines, the per-line substring scan finds neither
half, and `is_already_renamed` returns `False` right after `log_renamed_file`. -/
theorem c6_counterexample :
    is_already_renamed (log_renamed_file [] (chars "a\nb") (chars "c"))
      (chars "a\nb") = false := by
  decide

/-- C6 (amended): for every identifier containing no newline and every
name, after `log_renamed_file` appends to the ledger, `is_already_renamed`
returns `True` for that identifier. -/
theorem c6_record_then_processed (ledger vid name : List Char)
    (h : ∀ c ∈ vid, c ≠ '\n') :
    is_already_renamed (log_renamed_file ledger vid name) vid = true := by
  unfold is_already_renamed log_renamed_file readlines
  rw [List.any_eq_true]
  obtain ⟨l, hmem, p, t, hdec⟩ :=
    exists_line_with_seg ledger [] vid (',' :: (name ++ ['\n'])) h (by simp)
  exact ⟨l, hmem, containsSub_of_decomp vid p t l hdec⟩

/-- C6 witness: recording `dQw4w9WgXcQ` makes `is_already_renamed` true. -/
theorem c6_witness :
    is_already_renamed
      (log_renamed_file [] (chars "dQw4w9WgXcQ") (chars "New.mp4"))
      (chars "dQw4w9WgXcQ") = true :=
  c6_record_then_processed [] (chars "dQw4w9WgXcQ") (chars "New.mp4") (by decide)

/-- C7 counterexample: with `max_log_entries = 0`, Python's `lines[-0:]`
is the whole list, so rotating a one-line file keeps its line and the
"line count ≤ N" part of the claim fails at N = 0. -/
theorem c7_counterexample :
    ¬ ((readlines (rotate_log_file (chars "a\n") 0)).length ≤ 0) := by
  decide

/-- C7 (amended): for every content and every bound `N ≥ 1`, when the line
count does not exceed `N` rotation leaves the file unchanged, and when it
does, the rotated file holds exactly the most recent `N` lines. -/
theorem c7_rotate_spec (content : List Char) (N : Nat) (hN : 1 ≤ N) :
    ((readlines content).length ≤ N → rotate_log_file content N = content) ∧
    (N < (readlines content).length →
      readlines (rotate_log_file content N) =
        (readlines content).drop ((readlines content).length - N) ∧
      (readlines (rotate_log_file content N)).length = N) := by
  constructor
  · intro h
    show (if N < (readlines content).length then
        (sliceLastN (readlines content) N).flatten else content) = content
    rw [if_neg (by omega)]
  · intro h
    have hshape : LinesShape (readlines content) :=
      LinesShape_of_readlinesAux content [] (by simp)
    have hrot : rotate_log_file content N =
        ((readlines content).drop ((readlines content).length - N)).flatten := by
      show (if N < (readlines content).length then
          (sliceLastN (readlines content) N).flatten else content) = _
      rw [if_pos h]
      unfold sliceLastN
      rw [if_neg (by omega)]
    have hround : readlines (rotate_log_file content N) =
        (readlines content).drop ((readlines content).length - N) := by
      rw [hrot]
      exact readlines_flatten _ (LinesShape_drop _ _ hshape)
    refine ⟨hround, ?_⟩
    rw [hround, List.length_drop]
    omega

/-- C7 witness: a two-line file is unchanged by rotation to 2; a
three-line file rotated to 2 keeps exactly its last two lines. -/
theorem c7_witness :
    rotate_log_file (chars "a\nb\n") 2 = chars "a\nb\n" ∧
    readlines (rotate_log_file (chars "a\nb\nc\n") 2) = [chars "b\n", chars "c\n"] := by
  have h1 := c7_rotate_spec (chars "a\nb\n") 2 (by decide)
  have h2 := c7_rotate_spec (chars "a\nb\nc\n") 2 (by decide)
  refine ⟨h1.1 (by decide), ?_⟩
  rw [(h2.2 (by decide)).1]
  decide

/-! ### Decimal rendering is injective; the collision loop finds a free name -/

theorem decVal_append_digit (xs : List Char) (c : Char) :
    decVal (xs ++ [c]) = decVal xs * 10 + (c.toNat - 48) := by
  unfold decVal
  rw [List.foldl_append]
  rfl

theorem charDigit_val (d : Nat) (h : d < 10) : (Char.ofNat (48 + d)).toNat - 48 = d := by
  interval_cases d <;> decide

theorem natToDecGo_val (fuel : Nat) :
    ∀ n, n < fuel → decVal (natToDecGo fuel n) = n := by
  induction fuel with
  | zero => intro n h; omega
  | succ fuel' ih =>
      intro n h
      by_cases h10 : n < 10
      · simp only [natToDecGo, if_pos h10]
        have : decVal [Char.ofNat (48 + n)] = (Char.ofNat (48 + n)).toNat - 48 := by
          unfold decVal; simp
        rw [this, charDigit_val n h10]
      · simp only [natToDecGo, if_neg h10]
        have hdiv : n / 10 < n := Nat.div_lt_self (by omega) (by omega)
        rw [decVal_append_digit, ih (n / 10) (by omega),
          charDigit_val (n % 10) (Nat.mod_lt _ (by omega))]
        omega

theorem natToDec_val (n : Nat) : decVal (natToDec n) = n :=
  natToDecGo_val (n + 1) n (Nat.lt_succ_self n)

theorem natToDec_injective (a b : Nat) (h : natToDec a = natToDec b) : a = b := by
  have := congrArg decVal h
  rwa [natToDec_val, natToDec_val] at this

theorem candidateName_inj_pos (newName : List Char) (i j : Nat)
    (h : candidateName newName (i + 1) = candidateName newName (j + 1)) : i = j := by
  unfold candidateName at h
  have h1 := List.append_cancel_left h
  have h2 : natToDec (i + 1) ++ chars ".mp4" = natToDec (j + 1) ++ chars ".mp4" := by
    injection h1
  have h3 := List.append_cancel_right h2
  have := natToDec_injective (i + 1) (j + 1) h3
  omega

theorem exists_free_candidate (existing : List (List Char)) (newName : List Char) :
    ∃ k, k ≤ existing.length + 1 ∧ candidateName newName k ∉ existing := by
  by_contra hcon
  push_neg at hcon
  have hsub : ((List.range (existing.length + 1)).map
      (fun i => candidateName newName (i + 1))) ⊆ existing := by
    intro x hx
    simp only [List.mem_map, List.mem_range] at hx
    obtain ⟨i, hi, rfl⟩ := hx
    exact hcon (i + 1) (by omega)
  have hnodup : ((List.range (existing.length + 1)).map
      (fun i => candidateName newName (i + 1))).Nodup := by
    refine List.Nodup.map ?_ (List.nodup_range _)
    intro a b hab
    exact candidateName_inj_pos newName a b hab
  have hle := List.Subperm.length_le (List.Nodup.subperm hnodup hsub)
  simp only [List.length_map, List.length_range] at hle
  omega

theorem findDest_spec (existing : List (List Char)) (newName : List Char) :
    ∀ (fuel k : Nat), (∃ j < fuel, candidateName newName (k + j) ∉ existing) →
    ∃ j, findDest existing newName k fuel = candidateName newName (k + j) ∧
      candidateName newName (k + j) ∉ existing ∧
      ∀ i < j, candidateName newName (k + i) ∈ existing := by
  intro fuel
  induction fuel with
  | zero => intro k h; omega
  | succ fuel' ih =>
      intro k h
      by_cases hmem : candidateName newName k ∈ existing
      · obtain ⟨j, hj, hfree⟩ := h
        have hj0 : j ≠ 0 := by
          rintro rfl
          simp only [Nat.add_zero] at hfree
          exact hfree hmem
        obtain ⟨j', rfl⟩ : ∃ j', j = j' + 1 := ⟨j - 1, by omega⟩
        have hex : ∃ j2 < fuel', candidateName newName (k + 1 + j2) ∉ existing :=
          ⟨j', by omega, by rw [show k + 1 + j' = k + (j' + 1) by omega]; exact hfree⟩
        obtain ⟨j2, heq, hfree2, hall⟩ := ih (k + 1) hex
        refine ⟨j2 + 1, ?_, ?_, ?_⟩
        · simp only [findDest, if_pos hmem]
          rw [heq, show k + 1 + j2 = k + (j2 + 1) by omega]
        · rw [show k + (j2 + 1) = k + 1 + j2 by omega]; exact hfree2
        · intro i hi
          cases i with
          | zero => simpa using hmem
          | succ i' =>
              rw [show k + (i' + 1) = k + 1 + i' by omega]
              exact hall i' (by omega)
      · exact ⟨0, by simp [findDest, hmem], by simpa using hmem, by omega⟩

/-! ### The retry loop of `fetch_youtube_title` -/

theorem countAttempts_cons_attempt (i : Nat) (es : List FEvent) :
    countAttempts (FEvent.httpAttempt i :: es) = countAttempts es + 1 := by
  simp [countAttempts, List.filter]

theorem countAttempts_cons_slept (d : Nat) (es : List FEvent) :
    countAttempts (FEvent.slept d :: es) = countAttempts es := by
  simp [countAttempts, List.filter]

theorem countSleeps_cons_attempt (i : Nat) (es : List FEvent) :
    countSleeps (FEvent.httpAttempt i :: es) = countSleeps es := by
  simp [countSleeps, List.filter]

theorem countSleeps_cons_slept (d : Nat) (es : List FEvent) :
    countSleeps (FEvent.slept d :: es) = countSleeps es + 1 := by
  simp [countSleeps, List.filter]

theorem fetchGo_spec (oracle : Nat → Option (List Char)) (delay : Nat) :
    ∀ (rem i : Nat),
      countAttempts (fetchGo oracle delay i rem).2 ≤ rem ∧
      ((fetchGo oracle delay i rem).1 = none →
        countAttempts (fetchGo oracle delay i rem).2 = rem ∧
        countSleeps (fetchGo oracle delay i rem).2 = rem ∧
        FEvent.warned ∈ (fetchGo oracle delay i rem).2 ∧
        ∀ j < rem, oracle (i + j) = none) ∧
      (∀ t, (fetchGo oracle delay i rem).1 = some t →
        ∃ k < rem, oracle (i + k) = some t ∧ (∀ j < k, oracle (i + j) = none) ∧
          countAttempts (fetchGo oracle delay i rem).2 = k + 1 ∧
          countSleeps (fetchGo oracle delay i rem).2 = k ∧
          FEvent.warned ∉ (fetchGo oracle delay i rem).2) := by
  intro rem
  induction rem with
  | zero =>
      intro i
      refine ⟨by simp [fetchGo, countAttempts], ?_, ?_⟩
      · intro _
        refine ⟨by simp [fetchGo, countAttempts], by simp [fetchGo, countSleeps], ?_, ?_⟩
        · simp [fetchGo]
        · omega
      · intro t ht
        simp [fetchGo] at ht
  | succ rem' ih =>
      intro i
      cases horacle : oracle i with
      | some t0 =>
          have hgo : fetchGo oracle delay i (rem' + 1) = (some t0, [FEvent.httpAttempt i]) := by
            simp [fetchGo, horacle]
          refine ⟨?_, ?_, ?_⟩
          · rw [hgo]; simp [countAttempts, List.filter]
          · intro hnone; rw [hgo] at hnone; simp at hnone
          · intro t ht
            rw [hgo] at ht
            simp only at ht
            refine ⟨0, by omega, ?_, by omega, ?_, ?_, ?_⟩
            · rw [Nat.add_zero, horacle, ht]
            · rw [hgo]; simp [countAttempts, List.filter]
            · rw [hgo]; simp [countSleeps, List.filter]
            · rw [hgo]; simp
      | none =>
          have hgo : fetchGo oracle delay i (rem' + 1) =
              ((fetchGo oracle delay (i + 1) rem').1,
                FEvent.httpAttempt i :: FEvent.slept delay ::
                  (fetchGo oracle delay (i + 1) rem').2) := by
            simp [fetchGo, horacle]
          obtain ⟨iha, ihn, ihs⟩ := ih (i + 1)
          refine ⟨?_, ?_, ?_⟩
          · rw [hgo]
            simp only [countAttempts_cons_attempt, countAttempts_cons_slept]
            omega
          · intro hnone
            rw [hgo] at hnone
            simp only at hnone
            obtain ⟨ha, hs, hw, hor⟩ := ihn hnone
            rw [hgo]
            simp only [countAttempts_cons_attempt, countAttempts_cons_slept,
              countSleeps_cons_attempt, countSleeps_cons_slept]
            refine ⟨by omega, by omega, by simp [hw], ?_⟩
            intro j hj
            cases j with
            | zero => simpa using horacle
            | succ j' =>
                rw [show i + (j' + 1) = i + 1 + j' by omega]
                exact hor j' (by omega)
          · intro t ht
            rw [hgo] at ht
            simp only at ht
            obtain ⟨k, hk, hor, hall, ha, hs, hw⟩ := ihs t ht
            refine ⟨k + 1, by omega, ?_, ?_, ?_, ?_, ?_⟩
            · rw [show i + (k + 1) = i + 1 + k by omega]; exact hor
            · intro j hj
              cases j with
              | zero => simpa using horacle
              | succ j' =>
                  rw [show i + (j' + 1) = i + 1 + j' by omega]
                  exact hall j' (by omega)
            · rw [hgo]
              simp only [countAttempts_cons_attempt, countAttempts_cons_slept]
              omega
            · rw [hgo]
              simp only [countSleeps_cons_attempt, countSleeps_cons_slept]
              omega
            · rw [hgo]
              simp only [List.mem_cons]
              push_neg
              exact ⟨by simp, by simp, hw⟩

/-- C5 counterexample: with `max_retries = 1` and a single failed attempt
the code sleeps once, after the final attempt — with no next attempt to
wait for — so "sleeps only between attempts" (at most attempts − 1 sleeps)
fails at this input. -/
theorem c5_counterexample :
    countAttempts (fetch_youtube_title (fun _ => none) 1 5).2 = 1 ∧
    ¬ (countSleeps (fetch_youtube_title (fun _ => none) 1 5).2 ≤
        countAttempts (fetch_youtube_title (fun _ => none) 1 5).2 - 1) := by
  decide

/-- C5 (amended): `fetch_youtube_title` performs at most `max_retries`
attempts and returns the first valid title; when all attempts fail it
returns `None` and logs a warning — but it sleeps the fixed `retry_delay`
after every failed attempt, including the last, so an exhausted call
performs `max_retries` sleeps, not `max_retries − 1`. -/
theorem c5_fetch_spec (oracle : Nat → Option (List Char)) (maxRetries delay : Nat) :
    countAttempts (fetch_youtube_title oracle maxRetries delay).2 ≤ maxRetries ∧
    ((fetch_youtube_title oracle maxRetries delay).1 = none →
      countAttempts (fetch_youtube_title oracle maxRetries delay).2 = maxRetries ∧
      countSleeps (fetch_youtube_title oracle maxRetries delay).2 = maxRetries ∧
      FEvent.warned ∈ (fetch_youtube_title oracle maxRetries delay).2 ∧
      ∀ j < maxRetries, oracle j = none) ∧
    (∀ t, (fetch_youtube_title oracle maxRetries delay).1 = some t →
      ∃ k < maxRetries, oracle k = some t ∧ (∀ j < k, oracle j = none) ∧
        countAttempts (fetch_youtube_title oracle maxRetries delay).2 = k + 1 ∧
        countSleeps (fetch_youtube_title oracle maxRetries delay).2 = k ∧
        FEvent.warned ∉ (fetch_youtube_title oracle maxRetries delay).2) := by
  have h := fetchGo_spec oracle delay maxRetries 0
  simpa [fetch_youtube_title] using h

/-- C5 witness: two failing attempts yield exactly two attempts, two
sleeps, and the warning. -/
theorem c5_witness :
    countAttempts (fetch_youtube_title (fun _ => none) 2 7).2 = 2 ∧
    countSleeps (fetch_youtube_title (fun _ => none) 2 7).2 = 2 ∧
    FEvent.warned ∈ (fetch_youtube_title (fun _ => none) 2 7).2 := by
  have h := (c5_fetch_spec (fun _ => none) 2 7).2.1 (by decide)
  exact ⟨h.1, h.2.1, h.2.2.1⟩

/-- C8: the destination `rename_file` passes to `os.rename` is never one
of the existing paths, and it is the first free candidate in the
deterministic sequence `new_name`, `new_name_1.mp4`, `new_name_2.mp4`, …
— every earlier candidate is occupied. -/
theorem c8_rename_dest_spec (existing : List (List Char)) (newName : List Char) :
    rename_dest existing newName ∉ existing ∧
    ∃ k, rename_dest existing newName = candidateName newName k ∧
      ∀ i < k, candidateName newName i ∈ existing := by
  obtain ⟨k0, hk0, hfree⟩ := exists_free_candidate existing newName
  have hex : ∃ j < existing.length + 2, candidateName newName (0 + j) ∉ existing :=
    ⟨k0, by omega, by simpa using hfree⟩
  obtain ⟨j, heq, hfree2, hall⟩ := findDest_spec existing newName (existing.length + 2) 0 hex
  have hd : rename_dest existing newName = candidateName newName j := by
    rw [show rename_dest existing newName
        = findDest existing newName 0 (existing.length + 2) from rfl, heq]
    simp
  refine ⟨?_, j, hd, ?_⟩
  · rw [hd]
    simpa using hfree2
  · intro i hi
    simpa using hall i hi

/-- C4 counterexample: the only placeholders `apply_filename_pattern`
passes to `str.format` are `title`, `video_id` and `date`, so the pattern
`"{title}_{id}.mp4"` of the claim raises `KeyError` instead of rendering. -/
theorem c4_counterexample :
    apply_filename_pattern (chars "20261012") (chars "{title}_{id}.mp4")
      (chars "Foo: Bar") (chars "abc123") = none := by
  decide

/-- C4 (amended): with the placeholder the code actually supports,
rendering `"{title}_{video_id}.mp4"` with title `"Foo: Bar"` and id
`"abc123"` yields `"Foo_ Bar_abc123.mp4"`, sanitization having turned
`':'` into `'_'` (for any date string, as the pattern has no date field). -/
theorem c4_render_pattern (dateStr : List Char) :
    apply_filename_pattern dateStr (chars "{title}_{video_id}.mp4")
      (chars "Foo: Bar") (chars "abc123") = some (chars "Foo_ Bar_abc123.mp4") := rfl

/-! ### Skipping, absent titles, dry run, and the two log paths -/

theorem processFile_skip (cfg : RenConfig) (fetchO : List Char → Option (List Char))
    (confirm : List Char → List Char → Bool) (dateStr : List Char)
    (st : PState) (file : List Char)
    (h : endsWithList (chars ".mp4") file = true →
      is_already_renamed st.ledger (pyStem file) = true) :
    processFile cfg fetchO confirm dateStr st file = some (st, []) := by
  by_cases hm : endsWithList (chars ".mp4") file
  · simp [processFile, hm, h hm]
  · simp [processFile, hm]

theorem processFiles_all_skip (cfg : RenConfig) (fetchO : List Char → Option (List Char))
    (confirm : List Char → List Char → Bool) (dateStr : List Char) :
    ∀ (files : List (List Char)) (st : PState),
      (∀ f ∈ files, endsWithList (chars ".mp4") f = true →
        is_already_renamed st.ledger (pyStem f) = true) →
      processFiles cfg fetchO confirm dateStr st files = some (st, []) := by
  intro files
  induction files with
  | nil => intro st _; rfl
  | cons f fs ih =>
      intro st h
      have h1 := processFile_skip cfg fetchO confirm dateStr st f
        (h f (List.mem_cons_self _ _))
      have h2 := ih st (fun g hg => h g (List.mem_cons_of_mem _ hg))
      simp [processFiles, h1, h2]

/-- C2 (amended): re-running against a ledger that already contains every
discovered identifier leaves the state — the files and the ledger —
untouched and performs zero title-lookup network calls; the only possible
network call is the unconditional post-directory Plex rescan trigger,
which still fires whenever a Plex token and a library section id are
configured. -/
theorem c2_skip_no_fetch (cfg : RenConfig) (fetchO : List Char → Option (List Char))
    (confirm : List Char → List Char → Bool) (dateStr : List Char)
    (st : PState) (files : List (List Char))
    (h : ∀ f ∈ files, endsWithList (chars ".mp4") f = true →
      is_already_renamed st.ledger (pyStem f) = true) :
    process_directory cfg fetchO confirm dateStr st files
      = some (st, trigger_plex_scan cfg) ∧
    (∀ v, REffect.fetchTitle v ∉ trigger_plex_scan cfg) ∧
    (∀ s d, REffect.renamed s d ∉ trigger_plex_scan cfg) := by
  refine ⟨?_, ?_, ?_⟩
  · unfold process_directory
    rw [processFiles_all_skip cfg fetchO confirm dateStr files st h]
    simp
  · intro v
    unfold trigger_plex_scan
    by_cases hp : cfg.plexToken = [] || cfg.librarySectionId = []
    · simp [hp]
    · simp [hp]
  · intro s d
    unfold trigger_plex_scan
    by_cases hp : cfg.plexToken = [] || cfg.librarySectionId = []
    · simp [hp]
    · simp [hp]

/-- C2 counterexample: a full re-run where the single discovered identifier
is already in the ledger still performs one network call — the Plex rescan
GET — so "zero network calls" fails as stated. -/
theorem c2_counterexample :
    process_directory
      ⟨false, false, 50, chars "{title}.mp4", 10, 1000, chars "T", chars "1", true⟩
      (fun _ => some (chars "Test Video")) (fun _ _ => true) (chars "20261012")
      ⟨chars "dQw4w9WgXcQ,Old.mp4\n", [chars "dQw4w9WgXcQ.mp4"]⟩
      [chars "dQw4w9WgXcQ.mp4"]
    = some (⟨chars "dQw4w9WgXcQ,Old.mp4\n", [chars "dQw4w9WgXcQ.mp4"]⟩,
        [REffect.plexScan]) ∧
    countNetwork [REffect.plexScan] = 1 := by
  decide

/-- C2 witness: the amended theorem applied to the same concrete re-run. -/
theorem c2_witness :
    process_directory
      ⟨false, false, 50, chars "{title}.mp4", 10, 1000, chars "T", chars "1", true⟩
      (fun _ => some (chars "Test Video")) (fun _ _ => true) (chars "20261012")
      ⟨chars "dQw4w9WgXcQ,Old.mp4\n", [chars "dQw4w9WgXcQ.mp4"]⟩
      [chars "dQw4w9WgXcQ.mp4"]
    = some (⟨chars "dQw4w9WgXcQ,Old.mp4\n", [chars "dQw4w9WgXcQ.mp4"]⟩,
        trigger_plex_scan
          ⟨false, false, 50, chars "{title}.mp4", 10, 1000, chars "T", chars "1", true⟩) :=
  (c2_skip_no_fetch _ _ _ _ _ _ (by decide)).1

/-- C9: when the title fetch comes back absent, processing that file is a
no-op: the state (ledger and directory) is unchanged, and the trace holds
no rename, no ledger append, no rotation and no inter-item sleep — only
the fetch itself — so a later run may retry the file. -/
theorem c9_absent_title_noop (cfg : RenConfig) (fetchO : List Char → Option (List Char))
    (confirm : List Char → List Char → Bool) (dateStr : List Char)
    (st : PState) (file : List Char)
    (hfetch : fetchO (pyStem file) = none) :
    ∃ es, processFile cfg fetchO confirm dateStr st file = some (st, es) ∧
      (∀ s d, REffect.renamed s d ∉ es) ∧
      (∀ v n, REffect.ledgerAppend v n ∉ es) ∧
      (∀ sec, REffect.slept sec ∉ es) ∧
      REffect.logRotate ∉ es := by
  by_cases hm : endsWithList (chars ".mp4") file
  · by_cases hl : is_already_renamed st.ledger (pyStem file)
    · exact ⟨[], by simp [processFile, hm, hl], by simp, by simp, by simp, by simp⟩
    · refine ⟨[REffect.fetchTitle (pyStem file)], ?_, ?_, ?_, ?_, ?_⟩
      · simp [processFile, hm, hl, hfetch]
      · intro s d; simp
      · intro v n; simp
      · intro sec; simp
      · simp
  · exact ⟨[], by simp [processFile, hm], by simp, by simp, by simp, by simp⟩

/-- C9 witness: the no-op for a concrete file whose fetch returns absent. -/
theorem c9_witness :
    ∃ es, processFile
      ⟨false, false, 50, chars "{title}.mp4", 10, 1000, chars "T", chars "1", true⟩
      (fun _ => none) (fun _ _ => true) (chars "20261012")
      ⟨[], [chars "dQw4w9WgXcQ.mp4"]⟩ (chars "dQw4w9WgXcQ.mp4")
      = some (⟨[], [chars "dQw4w9WgXcQ.mp4"]⟩, es) ∧
      (∀ s d, REffect.renamed s d ∉ es) ∧
      (∀ v n, REffect.ledgerAppend v n ∉ es) ∧
      (∀ sec, REffect.slept sec ∉ es) ∧
      REffect.logRotate ∉ es :=
  c9_absent_title_noop _ _ _ _ _ _ rfl

/-- C1 (code-bug demonstration): a dry run over one unprocessed file does
skip the `os.rename`, but still appends the ledger entry, rotates the log,
sleeps, and fires the Plex rescan call: only `rename_file` checks the
`dry_run` flag, while `log_renamed_file`, `rotate_log_file`, `time.sleep`
and `trigger_plex_scan` run unguarded — contradicting the flag's own help
text "Simulate actions without making changes". -/
theorem c1_dry_run_still_mutates :
    process_directory
      ⟨true, false, 50, chars "{title}.mp4", 10, 1000, chars "T", chars "1", true⟩
      (fun _ => some (chars "Test Video")) (fun _ _ => true) (chars "20261012")
      ⟨[], [chars "dQw4w9WgXcQ.mp4"]⟩ [chars "dQw4w9WgXcQ.mp4"]
    = some (⟨chars "dQw4w9WgXcQ,Test Video.mp4\n", [chars "dQw4w9WgXcQ.mp4"]⟩,
        [REffect.fetchTitle (chars "dQw4w9WgXcQ"),
         REffect.ledgerAppend (chars "dQw4w9WgXcQ") (chars "Test Video.mp4"),
         REffect.logRotate, REffect.slept 10, REffect.plexScan]) ∧
    ([REffect.fetchTitle (chars "dQw4w9WgXcQ"),
      REffect.ledgerAppend (chars "dQw4w9WgXcQ") (chars "Test Video.mp4"),
      REffect.logRotate, REffect.slept 10, REffect.plexScan].filter isRenameEffect) = [] := by
  decide

/-- C10: rotation reads and truncates only the file at `log_file_path`
while `log_renamed_file` appends to the file at `metadata_log`; whenever
the two configured paths differ, rotation leaves the ledger file
completely unchanged and the ledger's length grows linearly — and hence
without bound — with the number of recorded items. -/
theorem c10_rotation_misses_ledger (logPath metaPath : List Char)
    (hne : metaPath ≠ logPath) :
    (∀ (fs : List Char → List Char) (maxE : Nat),
      rotateFileAt fs logPath maxE metaPath = fs metaPath) ∧
    (∀ (fs : List Char → List Char) (maxE : Nat) (vid name : List Char) (k : Nat),
      (((recordThenRotate logPath metaPath maxE vid name)^[k] fs) metaPath).length
        = (fs metaPath).length + k * (vid.length + name.length + 2)) ∧
    (∀ (fs : List Char → List Char) (maxE : Nat) (vid name : List Char) (B : Nat),
      ∃ k, B < (((recordThenRotate logPath metaPath maxE vid name)^[k] fs) metaPath).length) := by
  have hrot : ∀ (fs : List Char → List Char) (maxE : Nat),
      rotateFileAt fs logPath maxE metaPath = fs metaPath := by
    intro fs maxE
    unfold rotateFileAt
    rw [if_neg hne]
  have hgrow : ∀ (fs : List Char → List Char) (maxE : Nat) (vid name : List Char) (k : Nat),
      (((recordThenRotate logPath metaPath maxE vid name)^[k] fs) metaPath).length
        = (fs metaPath).length + k * (vid.length + name.length + 2) := by
    intro fs maxE vid name k
    have hstep : ∀ g : List Char → List Char,
        recordThenRotate logPath metaPath maxE vid name g metaPath
          = log_renamed_file (g metaPath) vid name := by
      intro g
      simp [recordThenRotate, recordFileAt, hrot, log_renamed_file]
    induction k with
    | zero => simp
    | succ k' ih =>
        rw [Function.iterate_succ_apply', hstep]
        simp only [log_renamed_file, List.length_append, List.length_cons, List.length_nil]
        rw [ih]
        ring

  refine ⟨hrot, hgrow, ?_⟩
  intro fs maxE vid name B
  refine ⟨B + 1, ?_⟩
  rw [hgrow fs maxE vid name (B + 1)]
  have h2 : B + 1 ≤ (B + 1) * 2 := by omega
  have h3 : (B + 1) * 2 ≤ (B + 1) * (vid.length + name.length + 2) :=
    Nat.mul_le_mul_left _ (by omega)
  omega

/-- C10 witness: with distinct paths `"log"` and `"meta"`, rotating leaves
the content at `"meta"` unchanged. -/
theorem c10_witness :
    rotateFileAt (fun _ => chars "x,y\n") (chars "log") 5 (chars "meta")
      = chars "x,y\n" :=
  (c10_rotation_misses_ledger (chars "log") (chars "meta") (by decide)).1
    (fun _ => chars "x,y\n") 5
